import Mathlib

/-!
Verification of the slotted rooted-tree container `Heap<T>` from `src/lib.rs`.

The embedding is shallow:

* `inner` models the slot store `Vec<(T, Option<usize>)>` as a `List (α × Option Nat)`.
* `free` models the `HashSet<usize>` of free indices by its set of elements
  (`Finset Nat`).  A Rust `HashSet` is iterated in an unspecified order, so the
  iteration order used by `Heap::insert` is passed in explicitly as a list
  `order` that enumerates the free set.
* A Rust panic (a failed `assert!`, a failed `expect`, or out-of-bounds slot
  indexing) is modelled by the fallible operation returning `none`; a panic
  aborts the call before the new state exists.
-/

structure Heap (α : Type) where
  inner : List (α × Option Nat)
  free : Finset Nat
  len : Nat

instance {α : Type} [DecidableEq α] : DecidableEq (Heap α) := fun a b =>
  decidable_of_iff (a.inner = b.inner ∧ a.free = b.free ∧ a.len = b.len)
    (by cases a; cases b; simp)

/-- A `DecidableEq` for `Option` that never transports along the inner equality
proof, so that it reduces even when the inner proof is a propositional
`Finset` equality. -/
instance decEqOptionNoRec {β : Type} [DecidableEq β] : DecidableEq (Option β) :=
  fun a b =>
  match a, b with
  | none, none => isTrue rfl
  | some x, some y => decidable_of_iff (x = y) (by simp)
  | none, some _ => isFalse (by simp)
  | some _, none => isFalse (by simp)

/-- A `DecidableEq` for pairs in the same transport-free style. -/
instance decEqProdNoRec {β γ : Type} [DecidableEq β] [DecidableEq γ] :
    DecidableEq (β × γ) := fun a b =>
  decidable_of_iff (a.1 = b.1 ∧ a.2 = b.2) (by cases a; cases b; simp)

namespace Heap

variable {α : Type}

/-- `Heap::new`: a tree holding only the root at index 0, free set `{1}`. -/
def new (root : α) : Heap α := ⟨[(root, none)], {1}, 1⟩

/-- `Heap::with_capacity`: the capacity hint has no logical effect on the state. -/
def with_capacity (_capacity : Nat) (root : α) : Heap α := new root

/-- `Heap::is_valid_idx`.  The Rust body is `index == 0 || self[index].1.is_some()`;
`self[index]` goes through the `Index` impl, which panics when `index` is out of
bounds of the store, so the result is partial: `none` models that panic.  The
`||` is short-circuiting, so `index == 0` never touches the store. -/
def is_valid_idx (h : Heap α) (index : Nat) : Option Bool :=
  if index = 0 then some true
  else (h.inner[index]?).map (fun s => s.2.isSome)

/-- The parent link stored at slot `j` (`none` when the slot does not exist,
or is the root, or is a tombstone). -/
def parentOf (h : Heap α) (j : Nat) : Option Nat :=
  (h.inner[j]?).bind (fun s => s.2)

/-- One step of the forward scan in `Heap::descendants_of`: a scanned pair
`(idx, node)` is added to the working set when `node.1` is `Some i` with `i`
already a member. -/
def descStep : Finset Nat → Nat × (α × Option Nat) → Finset Nat
  | acc, x =>
    match x.2.2 with
    | some p => if p ∈ acc then Insert.insert x.1 acc else acc
    | none => acc

/-- `Heap::descendants_of`: single forward scan of
`self.inner.iter().enumerate().skip(index + 1)`, working set initialised to
`{index}`, with `index` removed from the result. -/
def descendants_of (h : Heap α) (index : Nat) : Finset Nat :=
  ((h.inner.enum.drop (index + 1)).foldl descStep {index}).erase index

/-- `Heap::direct_children_of`: collect every scanned slot whose parent equals
`index` exactly. -/
def direct_children_of (h : Heap α) (index : Nat) : Finset Nat :=
  ((h.inner.enum.drop (index + 1)).filterMap
    (fun x =>
      match x.2.2 with
      | some i => if i = index then some x.1 else none
      | none => none)).toFinset

/-- `Heap::insert`.  `order` is the iteration order of the hash set `free`; the
chosen index is the first element of `order` that is strictly greater than
`parent` (Rust: `free.iter().skip_while(|x| x <= &&parent).next()`).  `none`
models a panic: invalid parent (or out-of-bounds parent inside
`is_valid_idx`), the failed `expect` when no such element exists, or an
out-of-bounds slot assignment `self[i] = …`.  Note the Rust source compares the
chosen index against `self.len()` — the live-node count — not against the
length of the slot store. -/
def insert (h : Heap α) (node : α) (parent : Nat) (order : List Nat) :
    Option (Heap α × Nat) :=
  match h.is_valid_idx parent with
  | some true =>
    match (order.dropWhile (fun x => x ≤ parent)).head? with
    | some i =>
      if h.len ≤ i then
        some (⟨h.inner ++ [(node, some parent)],
               Insert.insert (i + 1) (h.free.erase i), h.len + 1⟩, i)
      else
        if i < h.inner.length then
          some (⟨h.inner.set i (node, some parent), h.free.erase i, h.len + 1⟩, i)
        else none
    | none => none
  | _ => none

/-- `Heap::remove`.  `none` models the two assertion panics (removing the root,
removing an invalid index; an out-of-bounds index also panics, inside
`is_valid_idx`).  For `index` itself and every descendant: the index joins the
free set, the parent link is cleared (the value stays in place), and `len` is
decremented once per removed node. -/
def remove (h : Heap α) (index : Nat) : Option (Heap α) :=
  if index = 0 then none
  else
    match h.is_valid_idx index with
    | some true =>
      let S : Finset Nat := Insert.insert index (h.descendants_of index)
      some ⟨h.inner.enum.map (fun x => if x.1 ∈ S then (x.2.1, none) else x.2),
            h.free ∪ S, h.len - S.card⟩
    | _ => none

/-- Executable validity test of an index, total version used by the full scan
of the spec: true iff the index is 0 or its slot exists and has a `Some`
parent. -/
def validB (h : Heap α) (i : Nat) : Bool :=
  i == 0 || ((h.inner[i]?).map (fun s => s.2.isSome)).getD false

/-- The set of valid indices found by a full scan of the slot store. -/
def validSet (h : Heap α) : Finset Nat :=
  (Finset.range h.inner.length).filter (fun i => h.validB i)

/-- The number of valid indices found by a full scan of the slot store. -/
def validCount (h : Heap α) : Nat := h.validSet.card

/-- The ordering invariant: every stored parent link points strictly
downwards. -/
def ordered (h : Heap α) : Prop := ∀ j p, h.parentOf j = some p → p < j

/-- Executable version of `ordered`. -/
def orderedB (h : Heap α) : Bool :=
  h.inner.enum.all (fun x =>
    match x.2.2 with
    | some p => decide (p < x.1)
    | none => true)

/-- `j` is a live strict descendant of `i`: the chain of parent links stored in
the slot store leads from `j` to `i`. -/
inductive IsDesc (h : Heap α) (i : Nat) : Nat → Prop where
  | parent {j : Nat} : h.parentOf j = some i → IsDesc h i j
  | step {p j : Nat} : IsDesc h i p → h.parentOf j = some p → IsDesc h i j

/-- The tree states reachable through the public constructors and mutators.
The `ins` case requires the iteration order to enumerate the free set exactly
once, as a hash-set iteration does. -/
inductive Reachable : Heap α → Prop where
  | base (root : α) : Reachable (new root)
  | baseC (capacity : Nat) (root : α) : Reachable (with_capacity capacity root)
  | ins {h h' : Heap α} {v : α} {p i : Nat} {order : List Nat}
      (hr : Reachable h) (hnd : order.Nodup) (hen : order.toFinset = h.free)
      (hins : h.insert v p order = some (h', i)) : Reachable h'
  | rem {h h' : Heap α} {i : Nat} (hr : Reachable h)
      (hrm : h.remove i = some h') : Reachable h'

end Heap

/-! ## Concrete executions

`t0 … t3`: the minimal trace on which `Heap::insert` reuses a vacated index but
appends the node elsewhere (the chosen index 1 satisfies `1 ≥ len() = 1`
although slot 1 exists, vacated, in the store of length 2).

`u3, u4`: a trace on which the free set holds two candidates `{2, 3}` and the
hash-set iteration order `[3, 2]` makes `insert` pick 3, not the smallest.

`g0 … g7`: a longer trace after which `len()` disagrees with the full scan. -/

def t0 : Heap Nat := Heap.new 0

def t1 : Heap Nat := ⟨[(0, none), (10, some 0)], {2}, 2⟩

def t2 : Heap Nat := ⟨[(0, none), (10, none)], {1, 2}, 1⟩

def t3 : Heap Nat := ⟨[(0, none), (10, none), (20, some 0)], {2}, 2⟩

theorem reach_t1 : Heap.Reachable t1 :=
  @Heap.Reachable.ins Nat t0 t1 10 0 1 [1] (Heap.Reachable.base 0) (by decide) (by decide)
    (by decide)

theorem reach_t2 : Heap.Reachable t2 :=
  @Heap.Reachable.rem Nat t1 t2 1 reach_t1 (by decide)

theorem reach_t3 : Heap.Reachable t3 :=
  @Heap.Reachable.ins Nat t2 t3 20 0 1 [1, 2] reach_t2 (by decide) (by decide)
    (by decide)

def u2 : Heap Nat := ⟨[(0, none), (10, some 0), (20, some 0)], {3}, 3⟩

def u3 : Heap Nat := ⟨[(0, none), (10, some 0), (20, none)], {2, 3}, 2⟩

def u4 : Heap Nat := ⟨[(0, none), (10, some 0), (20, none), (30, some 0)], {2, 4}, 3⟩

theorem reach_u2 : Heap.Reachable u2 :=
  @Heap.Reachable.ins Nat t1 u2 20 0 2 [2] reach_t1 (by decide) (by decide) (by decide)

theorem reach_u3 : Heap.Reachable u3 :=
  @Heap.Reachable.rem Nat u2 u3 2 reach_u2 (by decide)

def g1 : Heap Nat := ⟨[(0, none), (1, some 0)], {2}, 2⟩

def g2 : Heap Nat := ⟨[(0, none), (1, some 0), (2, some 1)], {3}, 3⟩

def g3 : Heap Nat := ⟨[(0, none), (1, some 0), (2, some 1), (3, some 0)], {4}, 4⟩

def g4 : Heap Nat := ⟨[(0, none), (1, none), (2, none), (3, some 0)], {1, 2, 4}, 2⟩

def g5 : Heap Nat :=
  ⟨[(0, none), (1, none), (2, none), (3, some 0), (4, some 0)], {1, 3, 4}, 3⟩

def g6 : Heap Nat :=
  ⟨[(0, none), (5, some 0), (2, none), (3, some 0), (4, some 0)], {3, 4}, 4⟩

def g7 : Heap Nat :=
  ⟨[(0, none), (5, some 0), (2, none), (6, some 0), (4, some 0)], {4}, 5⟩

theorem reach_g1 : Heap.Reachable g1 :=
  @Heap.Reachable.ins Nat (Heap.new 0) g1 1 0 1 [1] (Heap.Reachable.base 0) (by decide)
    (by decide) (by decide)

theorem reach_g2 : Heap.Reachable g2 :=
  @Heap.Reachable.ins Nat g1 g2 2 1 2 [2] reach_g1 (by decide) (by decide) (by decide)

theorem reach_g3 : Heap.Reachable g3 :=
  @Heap.Reachable.ins Nat g2 g3 3 0 3 [3] reach_g2 (by decide) (by decide) (by decide)

theorem reach_g4 : Heap.Reachable g4 :=
  @Heap.Reachable.rem Nat g3 g4 1 reach_g3 (by decide)

theorem reach_g5 : Heap.Reachable g5 :=
  @Heap.Reachable.ins Nat g4 g5 4 0 2 [2, 1, 4] reach_g4 (by decide) (by decide)
    (by decide)

theorem reach_g6 : Heap.Reachable g6 :=
  @Heap.Reachable.ins Nat g5 g6 5 0 1 [1, 3, 4] reach_g5 (by decide) (by decide)
    (by decide)

theorem reach_g7 : Heap.Reachable g7 :=
  @Heap.Reachable.ins Nat g6 g7 6 0 3 [3, 4] reach_g6 (by decide) (by decide)
    (by decide)

/-! ## List-level helper lemmas -/

theorem head?_dropWhile_spec {q : Nat → Bool} :
    ∀ {l : List Nat} {a : Nat}, (l.dropWhile q).head? = some a → q a = false ∧ a ∈ l := by
  intro l
  induction l with
  | nil => intro a h; simp [List.dropWhile] at h
  | cons x xs ih =>
    intro a h
    rw [List.dropWhile_cons] at h
    by_cases hx : q x = true
    · rw [if_pos hx] at h
      rcases ih h with ⟨h1, h2⟩
      exact ⟨h1, List.mem_cons_of_mem _ h2⟩
    · rw [if_neg hx] at h
      simp only [List.head?_cons, Option.some.injEq] at h
      subst h
      simp only [Bool.not_eq_true] at hx
      exact ⟨hx, List.mem_cons_self _ _⟩

theorem enumFrom_drop {β : Type} :
    ∀ (l : List β) (k n : Nat),
      (List.enumFrom k l).drop n = List.enumFrom (k + n) (l.drop n) := by
  intro l
  induction l with
  | nil => intro k n; simp
  | cons x xs ih =>
    intro k n
    cases n with
    | zero => simp
    | succ m =>
      rw [List.enumFrom_cons]
      simp only [List.drop_succ_cons]
      rw [ih (k + 1) m]
      congr 1
      omega

theorem enum_drop {β : Type} (l : List β) (n : Nat) :
    l.enum.drop n = List.enumFrom n (l.drop n) := by
  rw [List.enum_eq_enumFrom, enumFrom_drop, Nat.zero_add]

theorem mem_enumFrom_spec {β : Type} {a k : Nat} {y : β} {l : List β}
    (hmem : (a, y) ∈ List.enumFrom k l) : k ≤ a ∧ l[a - k]? = some y := by
  rcases List.mem_enumFrom hmem with ⟨h1, h2, h3⟩
  refine ⟨h1, ?_⟩
  rw [List.getElem?_eq_getElem (by omega)]
  exact congrArg some h3.symm

/-! ## Lemmas about the forward scan of `descendants_of` -/

theorem descStep_subset {α : Type} (acc : Finset Nat) (x : Nat × (α × Option Nat)) :
    acc ⊆ Heap.descStep acc x := by
  rcases x with ⟨a, v, op⟩
  cases op with
  | none => exact Finset.Subset.refl _
  | some q =>
    simp only [Heap.descStep]
    by_cases hq : q ∈ acc
    · rw [if_pos hq]; exact Finset.subset_insert _ _
    · rw [if_neg hq]

theorem descScan_mono {α : Type} :
    ∀ (l : List (Nat × (α × Option Nat))) (acc : Finset Nat),
      acc ⊆ l.foldl Heap.descStep acc := by
  intro l
  induction l with
  | nil => intro acc; exact Finset.Subset.refl _
  | cons x xs ih =>
    intro acc
    exact Finset.Subset.trans (descStep_subset acc x) (ih (Heap.descStep acc x))

theorem mem_descScan_of_mem {α : Type} :
    ∀ (l : List (Nat × (α × Option Nat))) (acc : Finset Nat) (j q : Nat) (v : α),
      (j, (v, some q)) ∈ l → q ∈ acc → j ∈ l.foldl Heap.descStep acc := by
  intro l
  induction l with
  | nil => intro acc j q v hmem; simp at hmem
  | cons x xs ih =>
    intro acc j q v hmem hq
    rcases List.mem_cons.mp hmem with hx | hx
    · subst hx
      simp only [List.foldl_cons]
      refine descScan_mono xs _ ?_
      simp only [Heap.descStep, if_pos hq]
      exact Finset.mem_insert_self _ _
    · simp only [List.foldl_cons]
      exact ih (Heap.descStep acc x) j q v hx (descStep_subset acc x hq)

theorem mem_descScan_src {α : Type} :
    ∀ (l : List (Nat × (α × Option Nat))) (acc : Finset Nat) (j : Nat),
      j ∈ l.foldl Heap.descStep acc →
      j ∈ acc ∨ ∃ v q, (j, (v, some q)) ∈ l := by
  intro l
  induction l with
  | nil => intro acc j hj; exact Or.inl hj
  | cons x xs ih =>
    intro acc j hj
    simp only [List.foldl_cons] at hj
    rcases ih (Heap.descStep acc x) j hj with hacc | ⟨v, q, hmem⟩
    · rcases x with ⟨a, w, op⟩
      cases op with
      | none => exact Or.inl hacc
      | some r =>
        simp only [Heap.descStep] at hacc
        by_cases hr : r ∈ acc
        · rw [if_pos hr] at hacc
          rcases Finset.mem_insert.mp hacc with hja | hja
          · subst hja
            exact Or.inr ⟨w, r, List.mem_cons_self _ _⟩
          · exact Or.inl hja
        · rw [if_neg hr] at hacc
          exact Or.inl hacc
    · exact Or.inr ⟨v, q, List.mem_cons_of_mem _ hmem⟩

/-! ## Inversion lemmas for the mutating operations -/

theorem insert_inv {α : Type} {h h' : Heap α} {v : α} {p i : Nat} {order : List Nat}
    (hins : h.insert v p order = some (h', i)) :
    h.is_valid_idx p = some true ∧
    (order.dropWhile (fun x => x ≤ p)).head? = some i ∧
    ((h.len ≤ i ∧
        h' = ⟨h.inner ++ [(v, some p)],
              Insert.insert (i + 1) (h.free.erase i), h.len + 1⟩) ∨
      (i < h.len ∧ i < h.inner.length ∧
        h' = ⟨h.inner.set i (v, some p), h.free.erase i, h.len + 1⟩)) := by
  unfold Heap.insert at hins
  split at hins
  case _ heq =>
    split at hins
    case _ j hhead =>
      by_cases hle : h.len ≤ j
      · rw [if_pos hle] at hins
        simp only [Option.some.injEq, Prod.mk.injEq] at hins
        obtain ⟨h1, h2⟩ := hins
        subst h2
        exact ⟨heq, hhead, Or.inl ⟨hle, h1.symm⟩⟩
      · rw [if_neg hle] at hins
        split at hins
        case _ hlt =>
          simp only [Option.some.injEq, Prod.mk.injEq] at hins
          obtain ⟨h1, h2⟩ := hins
          subst h2
          exact ⟨heq, hhead, Or.inr ⟨by omega, hlt, h1.symm⟩⟩
        case _ => exact absurd hins (by simp)
    case _ => exact absurd hins (by simp)
  case _ => exact absurd hins (by simp)

theorem remove_inv {α : Type} {h h' : Heap α} {i : Nat}
    (hrm : h.remove i = some h') :
    i ≠ 0 ∧ h.is_valid_idx i = some true ∧
    h' = ⟨h.inner.enum.map
            (fun x =>
              if x.1 ∈ Insert.insert i (h.descendants_of i) then (x.2.1, none) else x.2),
          h.free ∪ Insert.insert i (h.descendants_of i),
          h.len - (Insert.insert i (h.descendants_of i)).card⟩ := by
  unfold Heap.remove at hrm
  by_cases hz : i = 0
  · rw [if_pos hz] at hrm; exact absurd hrm (by simp)
  · rw [if_neg hz] at hrm
    split at hrm
    case _ heq =>
      simp only [Option.some.injEq] at hrm
      exact ⟨hz, heq, hrm.symm⟩
    case _ => exact absurd hrm (by simp)

theorem is_valid_idx_true_elim {α : Type} {h : Heap α} {i : Nat}
    (hv : h.is_valid_idx i = some true) :
    i = 0 ∨ ∃ s, h.inner[i]? = some s ∧ s.2.isSome = true := by
  unfold Heap.is_valid_idx at hv
  by_cases hz : i = 0
  · exact Or.inl hz
  · rw [if_neg hz] at hv
    right
    cases hg : h.inner[i]? with
    | none => rw [hg] at hv; exact Option.noConfusion hv
    | some s =>
      rw [hg] at hv
      exact ⟨s, rfl, Option.some.inj hv⟩

theorem lt_length_of_getElem?_some {β : Type} {l : List β} {i : Nat} {s : β}
    (hg : l[i]? = some s) : i < l.length := by
  by_contra hge
  rw [List.getElem?_eq_none (by omega)] at hg
  exact Option.noConfusion hg

/-! ## Claims C8, C10, C3, C9 -/

/-- C8: `insert` with an invalid parent, `remove(0)`, and `remove` of an
invalid index all abort with a contract violation — modelled by `none`: the
call panics before any mutation and no successor state is produced. -/
theorem C8_contract_violations_abort {α : Type} (h : Heap α) (v : α) (p i : Nat)
    (order : List Nat) :
    (h.is_valid_idx p ≠ some true → h.insert v p order = none) ∧
    h.remove 0 = none ∧
    (i ≠ 0 → h.is_valid_idx i ≠ some true → h.remove i = none) := by
  refine ⟨?_, ?_, ?_⟩
  · intro hp
    unfold Heap.insert
    cases hpv : h.is_valid_idx p with
    | none => rfl
    | some b =>
      cases b with
      | false => rfl
      | true => exact absurd hpv hp
  · unfold Heap.remove
    rw [if_pos rfl]
  · intro hz hval
    unfold Heap.remove
    rw [if_neg hz]
    cases hpv : h.is_valid_idx i with
    | none => rfl
    | some b =>
      cases b with
      | false => rfl
      | true => exact absurd hpv hval

theorem C8_witness :
    (Heap.new (0 : Nat)).is_valid_idx 5 ≠ some true ∧
    (Heap.new (0 : Nat)).insert 7 5 [1] = none ∧
    (Heap.new (0 : Nat)).remove 0 = none ∧
    (Heap.new (0 : Nat)).remove 1 = none :=
  ⟨by decide,
   (C8_contract_violations_abort (Heap.new 0) 7 5 1 [1]).1 (by decide),
   (C8_contract_violations_abort (Heap.new 0) 7 5 1 [1]).2.1,
   (C8_contract_violations_abort (Heap.new 0) 7 5 1 [1]).2.2 (by decide) (by decide)⟩

/-- C10: `is_valid_idx` is a partial function of the index: when the slot
exists (index strictly below the store length) it returns `some` of
`index == 0 || parent.isSome`; at or beyond the store length it panics
(`none`) instead of returning `false`. -/
theorem C10_is_valid_idx_oob_panics {α : Type} (h : Heap α) (i : Nat)
    (hpos : 0 < h.inner.length) :
    (∀ s, h.inner[i]? = some s →
        h.is_valid_idx i = some ((i == 0) || s.2.isSome)) ∧
    (h.inner.length ≤ i → h.is_valid_idx i = none) := by
  constructor
  · intro s hs
    unfold Heap.is_valid_idx
    by_cases hz : i = 0
    · subst hz
      rw [if_pos rfl]
      simp
    · rw [if_neg hz, hs]
      have hb : (i == 0) = false := by simpa using hz
      rw [hb]
      simp
  · intro hge
    unfold Heap.is_valid_idx
    rw [if_neg (by omega), List.getElem?_eq_none hge]
    rfl

theorem C10_witness :
    0 < t1.inner.length ∧ t1.is_valid_idx 1 = some true ∧
    t1.is_valid_idx 5 = none :=
  ⟨by decide,
   (C10_is_valid_idx_oob_panics t1 1 (by decide)).1 (10, some 0) (by decide),
   (C10_is_valid_idx_oob_panics t1 5 (by decide)).2 (by decide)⟩

/-- C3 (amended): `insert(v, p)` returns the first member of the free set's
iteration order that is strictly greater than `p` — some member of the free
set greater than `p`, not necessarily the smallest such member.  In
particular the returned index is `> p` and belonged to the free set. -/
theorem C3_insert_returns_member_above_parent {α : Type} {h h' : Heap α}
    {v : α} {p i : Nat} {order : List Nat} (hen : order.toFinset = h.free)
    (hins : h.insert v p order = some (h', i)) :
    p < i ∧ i ∈ h.free := by
  rcases insert_inv hins with ⟨-, hhead, -⟩
  rcases head?_dropWhile_spec hhead with ⟨hle, hmem⟩
  constructor
  · have h2 : ¬(i ≤ p) := of_decide_eq_false hle
    omega
  · rw [← hen]
    exact List.mem_toFinset.mpr hmem

theorem C3_witness :
    [1].toFinset = t0.free ∧ t0.insert 10 0 [1] = some (t1, 1) ∧
    0 < 1 ∧ 1 ∈ t0.free :=
  ⟨by decide, by decide,
   (C3_insert_returns_member_above_parent (by decide)
     (by decide : t0.insert 10 0 [1] = some (t1, 1))).1,
   (C3_insert_returns_member_above_parent (by decide)
     (by decide : t0.insert 10 0 [1] = some (t1, 1))).2⟩

/-- C3 is false as stated: on the reachable state `u3` the free set is
`{2, 3}` and the parent is 0, so the smallest member strictly greater than
the parent is 2; yet with the admissible hash-set iteration order `[3, 2]`
the call returns 3. -/
theorem C3_counterexample :
    Heap.Reachable u3 ∧ [3, 2].Nodup ∧ [3, 2].toFinset = u3.free ∧
    2 ∈ u3.free ∧ 0 < 2 ∧ 2 < 3 ∧
    u3.insert 30 0 [3, 2] = some (u4, 3) :=
  ⟨reach_u3, by decide, by decide, by decide, by decide, by decide, by decide⟩

/-- C9: for every tree state and every index, the direct children of an index
form a subset of its descendants. -/
theorem C9_direct_children_subset_descendants {α : Type} (h : Heap α)
    (i : Nat) : h.direct_children_of i ⊆ h.descendants_of i := by
  intro j hj
  unfold Heap.direct_children_of at hj
  rw [List.mem_toFinset, List.mem_filterMap] at hj
  rcases hj with ⟨x, hxl, hx⟩
  rcases x with ⟨a, v, op⟩
  cases op with
  | none => exact absurd hx (by simp)
  | some q =>
    have hx' : (if q = i then some a else none) = some j := hx
    by_cases hq : q = i
    · rw [if_pos hq] at hx'
      have ha : a = j := Option.some.inj hx'
      subst ha
      subst hq
      unfold Heap.descendants_of
      rw [enum_drop] at hxl
      rcases mem_enumFrom_spec hxl with ⟨hge, -⟩
      rw [Finset.mem_erase]
      refine ⟨by omega, ?_⟩
      rw [enum_drop]
      exact mem_descScan_of_mem _ {q} a q v hxl (Finset.mem_singleton_self q)
    · rw [if_neg hq] at hx'
      exact absurd hx' (by simp)

theorem C9_witness : 2 ∈ t3.descendants_of 0 :=
  C9_direct_children_subset_descendants t3 0 (by decide)

/-! ## Claims C1, C2, C5: the `i >= self.len()` bug

`Heap::insert` compares the chosen free index against `self.len()` — the live
node count — instead of the length of the slot store.  After a removal the two
differ, and an insertion that picks a vacated index `i` with
`len() ≤ i < store length` takes the append branch: the node is pushed at the
end of the store while the vacated slot stays a tombstone, and the returned
index does not address the inserted node. -/

/-- C1 is violated by the code: on the reachable state `t2` (store length 2,
`len() = 1`, free set `{1, 2}`), inserting under parent 0 with iteration order
`[1, 2]` chooses index 1 — the smallest free index above the parent, strictly
below the occupied range — yet the call appends the node at store index 2 and
returns 1, which afterwards is not a valid index and still holds the old
tombstoned slot `(10, None)` rather than `(20, Some 0)`. -/
theorem C1_insert_misplaces_reused_slot :
    Heap.Reachable t2 ∧
    t2.insert 20 0 [1, 2] = some (t3, 1) ∧
    1 < t2.inner.length ∧
    t3.is_valid_idx 1 = some false ∧
    t3.inner[1]? = some (10, none) ∧
    t3.inner[2]? = some (20, some 0) :=
  ⟨reach_t2, by decide, by decide, by decide, by decide, by decide⟩

/-- C2 is violated by the code: the reachable state `t3` (produced by the
trace of `C1_insert_misplaces_reused_slot`) breaks all three clauses of the
free-set invariant: no member of the free set is `≥` the store length 3, the
valid index 2 is a member of the free set, and index 1 is below the store
length, outside the free set, and yet invalid. -/
theorem C2_free_set_invariant_violated :
    Heap.Reachable t3 ∧
    (∀ f ∈ t3.free, f < t3.inner.length) ∧
    (2 ∈ t3.free ∧ t3.validB 2 = true) ∧
    (1 ∉ t3.free ∧ 1 < t3.inner.length ∧ (1 : Nat) ≠ 0 ∧ t3.validB 1 = false) :=
  ⟨reach_t3, by decide, by decide, by decide⟩

/-- C5 is violated by the code: the reachable state `g7` has `len() = 5`
although a full scan of the slot store finds only 4 valid indices.  The trace
reaches it by letting the append-instead-of-overwrite bug of
`C1_insert_misplaces_reused_slot` park the valid index 3 in the free set, and
then letting a later insertion overwrite that still-live slot. -/
theorem C5_len_disagrees_with_scan :
    Heap.Reachable g7 ∧ g7.len = 5 ∧ g7.validCount = 4 :=
  ⟨reach_g7, by decide, by decide⟩

/-! ## The ordering invariant (C7) -/

theorem parentOf_new {α : Type} (root : α) (j : Nat) :
    (Heap.new root).parentOf j = none := by
  unfold Heap.parentOf Heap.new
  cases j with
  | zero => rfl
  | succ n => simp

theorem getElem?_enumMap {α β : Type} (l : List α) (f : Nat × α → β) (j : Nat) :
    (l.enum.map f)[j]? = (l[j]?).map (fun s => f (j, s)) := by
  rw [List.getElem?_map, List.getElem?_enum]
  cases l[j]? <;> rfl

theorem remove_parentOf {α : Type} {h h' : Heap α} {i : Nat}
    (hrm : h.remove i = some h') (j : Nat) :
    h'.parentOf j =
      if j ∈ Insert.insert i (h.descendants_of i) then none else h.parentOf j := by
  rcases remove_inv hrm with ⟨-, -, h'eq⟩
  subst h'eq
  unfold Heap.parentOf
  rw [getElem?_enumMap]
  cases hg : h.inner[j]? with
  | none => simp
  | some s =>
    by_cases hjS : j ∈ Insert.insert i (h.descendants_of i)
    · rw [if_pos hjS]
      simp [hjS]
    · rw [if_neg hjS]
      simp [hjS]

theorem remove_inner_length {α : Type} {h h' : Heap α} {i : Nat}
    (hrm : h.remove i = some h') : h'.inner.length = h.inner.length := by
  rcases remove_inv hrm with ⟨-, -, h'eq⟩
  subst h'eq
  simp [List.enum_length]

theorem parentOf_mk {α : Type} (l : List (α × Option Nat)) (fr : Finset Nat)
    (n j : Nat) :
    (Heap.mk l fr n).parentOf j = (l[j]?).bind (fun s => s.2) := rfl

theorem reachable_inner_pos {α : Type} {h : Heap α} (hr : Heap.Reachable h) :
    0 < h.inner.length := by
  induction hr with
  | base root => simp [Heap.new]
  | baseC c root => simp [Heap.with_capacity, Heap.new]
  | @ins g g' v p i order hr0 hnd hen hins ih =>
    rcases insert_inv hins with ⟨-, -, hbr⟩
    rcases hbr with ⟨-, h'eq⟩ | ⟨-, -, h'eq⟩
    · subst h'eq
      show 0 < (g.inner ++ [(v, some p)]).length
      simp only [List.length_append, List.length_cons, List.length_nil]
      omega
    · subst h'eq
      show 0 < (g.inner.set i (v, some p)).length
      rw [List.length_set]
      exact ih
  | @rem g g' i hr0 hrm ih =>
    rw [remove_inner_length hrm]
    exact ih

theorem reachable_ordered {α : Type} {h : Heap α} (hr : Heap.Reachable h) :
    h.ordered := by
  induction hr with
  | base root =>
    intro j q hjq
    rw [parentOf_new] at hjq
    exact Option.noConfusion hjq
  | baseC c root =>
    intro j q hjq
    have h0 : (Heap.with_capacity c root).parentOf j = none := parentOf_new root j
    rw [h0] at hjq
    exact Option.noConfusion hjq
  | @ins g g' v p i order hr0 hnd hen hins ih =>
    rcases insert_inv hins with ⟨hval, hhead, hbr⟩
    have hpos : 0 < g.inner.length := reachable_inner_pos hr0
    rcases hbr with ⟨hle, h'eq⟩ | ⟨hlt, hlen, h'eq⟩
    · subst h'eq
      intro j q hjq
      rw [parentOf_mk] at hjq
      rcases lt_trichotomy j g.inner.length with hj | hj | hj
      · rw [List.getElem?_append_left hj] at hjq
        exact ih j q hjq
      · rw [hj, List.getElem?_concat_length] at hjq
        have hq : p = q := Option.some.inj hjq
        subst hq
        rcases is_valid_idx_true_elim hval with hz | ⟨s, hs, -⟩
        · subst hz; omega
        · have hplt := lt_length_of_getElem?_some hs
          omega
      · rw [List.getElem?_eq_none
          (by simp only [List.length_append, List.length_cons, List.length_nil]; omega)] at hjq
        exact Option.noConfusion hjq
    · subst h'eq
      intro j q hjq
      rw [parentOf_mk] at hjq
      by_cases hji : j = i
      · subst hji
        rw [List.getElem?_set_self'] at hjq
        cases hg : g.inner[j]? with
        | none => rw [hg] at hjq; exact Option.noConfusion hjq
        | some s =>
          rw [hg] at hjq
          have hq : p = q := Option.some.inj hjq
          subst hq
          rcases head?_dropWhile_spec hhead with ⟨hdec, -⟩
          have hnle : ¬(j ≤ p) := of_decide_eq_false hdec
          omega
      · rw [List.getElem?_set_ne (fun hc => hji hc.symm)] at hjq
        exact ih j q hjq
  | @rem g g' i hr0 hrm ih =>
    intro j q hjq
    rw [remove_parentOf hrm j] at hjq
    by_cases hjS : j ∈ Insert.insert i (g.descendants_of i)
    · rw [if_pos hjS] at hjq
      exact Option.noConfusion hjq
    · rw [if_neg hjS] at hjq
      exact ih j q hjq

/-- C7: in every reachable tree state, every stored parent link points to a
strictly smaller index: the ordering invariant holds after construction and is
preserved by every `insert` and `remove`. -/
theorem C7_ordering_invariant {α : Type} (h : Heap α) (hr : Heap.Reachable h) :
    h.ordered :=
  reachable_ordered hr

theorem C7_witness : g1.parentOf 1 = some 0 ∧ (0 : Nat) < 1 :=
  ⟨by decide, C7_ordering_invariant g1 reach_g1 1 0 (by decide)⟩

theorem ordered_of_orderedB {α : Type} {h : Heap α} (hb : h.orderedB = true) :
    h.ordered := by
  intro j q hjq
  unfold Heap.orderedB at hb
  rw [List.all_eq_true] at hb
  unfold Heap.parentOf at hjq
  cases hg : h.inner[j]? with
  | none => rw [hg] at hjq; exact Option.noConfusion hjq
  | some s =>
    rw [hg] at hjq
    have hs2 : s.2 = some q := hjq
    have hmem : (j, s) ∈ h.inner.enum := List.mk_mem_enum_iff_getElem?.mpr hg
    have hx := hb (j, s) hmem
    rw [show ((j, s) : Nat × (α × Option Nat)).2.2 = some q from hs2] at hx
    exact of_decide_eq_true hx

/-! ## The descendant scan computes exactly the parent-chain closure (C6) -/

theorem isDesc_parent_some {α : Type} {h : Heap α} {i j : Nat}
    (hd : Heap.IsDesc h i j) :
    ∃ q, h.parentOf j = some q ∧ (q = i ∨ Heap.IsDesc h i q) := by
  cases hd with
  | parent hp => exact ⟨i, hp, Or.inl rfl⟩
  | step hd' hp => exact ⟨_, hp, Or.inr hd'⟩

theorem isDesc_of_parent {α : Type} {h : Heap α} {i j q : Nat}
    (hq : h.parentOf j = some q) (hqi : q = i ∨ Heap.IsDesc h i q) :
    Heap.IsDesc h i j := by
  rcases hqi with rfl | hd
  · exact Heap.IsDesc.parent hq
  · exact Heap.IsDesc.step hd hq

theorem isDesc_lt {α : Type} {h : Heap α} (hord : h.ordered) {i j : Nat}
    (hd : Heap.IsDesc h i j) : i < j := by
  induction hd with
  | parent hp => exact hord _ _ hp
  | step hd' hp ih => exact lt_trans ih (hord _ _ hp)

theorem isDesc_valid {α : Type} {h : Heap α} {i j : Nat}
    (hd : Heap.IsDesc h i j) : h.validB j = true := by
  rcases isDesc_parent_some hd with ⟨q, hq, -⟩
  unfold Heap.validB
  unfold Heap.parentOf at hq
  cases hg : h.inner[j]? with
  | none => rw [hg] at hq; exact Option.noConfusion hq
  | some s =>
    rw [hg] at hq
    have hs2 : s.2 = some q := hq
    simp [hs2]

theorem descStep_none_eq {α : Type} (acc : Finset Nat) (k : Nat) (v : α) :
    Heap.descStep acc (k, v, none) = acc := rfl

theorem descStep_some_eq {α : Type} (acc : Finset Nat) (k : Nat) (v : α) (q : Nat) :
    Heap.descStep acc (k, v, some q) =
      if q ∈ acc then Insert.insert k acc else acc := rfl

theorem descScan_chain {α : Type} (h : Heap α) (hord : h.ordered) (i : Nat) :
    ∀ (rest : List (α × Option Nat)) (k : Nat) (acc : Finset Nat),
      i < k →
      (∀ m, m < rest.length → rest[m]? = h.inner[k + m]?) →
      (∀ j, j ∈ acc ↔ (j = i ∨ (Heap.IsDesc h i j ∧ j < k))) →
      ∀ j, j ∈ (List.enumFrom k rest).foldl Heap.descStep acc ↔
        (j = i ∨ (Heap.IsDesc h i j ∧ j < k + rest.length)) := by
  intro rest
  induction rest with
  | nil =>
    intro k acc hik halign hacc j
    simpa using hacc j
  | cons x rest' ih =>
    intro k acc hik halign hacc j
    rcases x with ⟨v, op⟩
    have hx : h.inner[k]? = some (v, op) := by
      have h0 := halign 0 (by simp)
      simpa using h0.symm
    have hpk : h.parentOf k = op := by
      unfold Heap.parentOf
      rw [hx]
      rfl
    have halign' : ∀ m, m < rest'.length → rest'[m]? = h.inner[(k + 1) + m]? := by
      intro m hm
      have hs := halign (m + 1) (by simp; omega)
      rw [List.getElem?_cons_succ] at hs
      rw [hs]
      congr 1
      omega
    rw [List.enumFrom_cons]
    simp only [List.foldl_cons]
    cases op with
    | none =>
      have hnd : ¬ Heap.IsDesc h i k := by
        intro hd
        rcases isDesc_parent_some hd with ⟨q, hq, -⟩
        rw [hpk] at hq
        exact Option.noConfusion hq
      rw [descStep_none_eq]
      have hacc' : ∀ j, j ∈ acc ↔ (j = i ∨ (Heap.IsDesc h i j ∧ j < k + 1)) := by
        intro j'
        rw [hacc j']
        constructor
        · rintro (rfl | ⟨hd, hlt⟩)
          · exact Or.inl rfl
          · exact Or.inr ⟨hd, by omega⟩
        · rintro (rfl | ⟨hd, hlt⟩)
          · exact Or.inl rfl
          · refine Or.inr ⟨hd, ?_⟩
            rcases Nat.lt_succ_iff_lt_or_eq.mp hlt with hltk | heqk
            · exact hltk
            · subst heqk
              exact absurd hd hnd
      have hres := ih (k + 1) acc (by omega) halign' hacc' j
      rw [hres]
      simp only [List.length_cons]
      rw [show k + (rest'.length + 1) = k + 1 + rest'.length from by omega]
    | some q =>
      have hqk : q < k := hord _ _ (by rw [hpk])
      have hiff : Heap.IsDesc h i k ↔ (q = i ∨ Heap.IsDesc h i q) := by
        constructor
        · intro hd
          rcases isDesc_parent_some hd with ⟨q', hq', hqi⟩
          rw [hpk] at hq'
          have hqq : q = q' := Option.some.inj hq'
          subst hqq
          exact hqi
        · intro hqi
          exact isDesc_of_parent (by rw [hpk]) hqi
      have hqacc : q ∈ acc ↔ Heap.IsDesc h i k := by
        rw [hacc q, hiff]
        constructor
        · rintro (rfl | ⟨hd, -⟩)
          · exact Or.inl rfl
          · exact Or.inr hd
        · rintro (rfl | hd)
          · exact Or.inl rfl
          · exact Or.inr ⟨hd, hqk⟩
      rw [descStep_some_eq]
      by_cases hq : q ∈ acc
      · rw [if_pos hq]
        have hdk : Heap.IsDesc h i k := hqacc.mp hq
        have hacc' : ∀ j, j ∈ Insert.insert k acc ↔
            (j = i ∨ (Heap.IsDesc h i j ∧ j < k + 1)) := by
          intro j'
          rw [Finset.mem_insert, hacc j']
          constructor
          · rintro (rfl | rfl | ⟨hd, hlt⟩)
            · exact Or.inr ⟨hdk, by omega⟩
            · exact Or.inl rfl
            · exact Or.inr ⟨hd, by omega⟩
          · rintro (rfl | ⟨hd, hlt⟩)
            · exact Or.inr (Or.inl rfl)
            · rcases Nat.lt_succ_iff_lt_or_eq.mp hlt with hltk | heqk
              · exact Or.inr (Or.inr ⟨hd, hltk⟩)
              · exact Or.inl heqk
        have hres := ih (k + 1) (Insert.insert k acc) (by omega) halign' hacc' j
        rw [hres]
        simp only [List.length_cons]
        rw [show k + (rest'.length + 1) = k + 1 + rest'.length from by omega]
      · rw [if_neg hq]
        have hnd : ¬ Heap.IsDesc h i k := fun hd => hq (hqacc.mpr hd)
        have hacc' : ∀ j, j ∈ acc ↔ (j = i ∨ (Heap.IsDesc h i j ∧ j < k + 1)) := by
          intro j'
          rw [hacc j']
          constructor
          · rintro (rfl | ⟨hd, hlt⟩)
            · exact Or.inl rfl
            · exact Or.inr ⟨hd, by omega⟩
          · rintro (rfl | ⟨hd, hlt⟩)
            · exact Or.inl rfl
            · refine Or.inr ⟨hd, ?_⟩
              rcases Nat.lt_succ_iff_lt_or_eq.mp hlt with hltk | heqk
              · exact hltk
              · subst heqk
                exact absurd hd hnd
        have hres := ih (k + 1) acc (by omega) halign' hacc' j
        rw [hres]
        simp only [List.length_cons]
        rw [show k + (rest'.length + 1) = k + 1 + rest'.length from by omega]

/-- C6: for every tree state satisfying the ordering invariant and every valid
index `i`, the single forward scan of `descendants_of` computes exactly the
set of live strict descendants of `i` — the valid indices whose chain of
parent links reaches `i`; no second pass is needed. -/
theorem C6_descendants_of_single_scan {α : Type} (h : Heap α)
    (hord : h.ordered) (i : Nat) (hv : h.is_valid_idx i = some true) (j : Nat) :
    j ∈ h.descendants_of i ↔ (h.validB j = true ∧ Heap.IsDesc h i j) := by
  unfold Heap.descendants_of
  rw [Finset.mem_erase, enum_drop]
  have hmain := descScan_chain h hord i (h.inner.drop (i + 1)) (i + 1) {i}
      (by omega)
      (fun m hm => by rw [List.getElem?_drop])
      (fun j' => by
        rw [Finset.mem_singleton]
        constructor
        · rintro rfl
          exact Or.inl rfl
        · rintro (rfl | ⟨hd, hlt⟩)
          · rfl
          · have := isDesc_lt hord hd
            omega)
  rw [hmain j]
  constructor
  · rintro ⟨hne, (rfl | ⟨hd, -⟩)⟩
    · exact absurd rfl hne
    · exact ⟨isDesc_valid hd, hd⟩
  · rintro ⟨-, hd⟩
    have hij := isDesc_lt hord hd
    refine ⟨by omega, Or.inr ⟨hd, ?_⟩⟩
    have hjlen : j < h.inner.length := by
      rcases isDesc_parent_some hd with ⟨q, hq, -⟩
      unfold Heap.parentOf at hq
      cases hg : h.inner[j]? with
      | none => rw [hg] at hq; exact Option.noConfusion hq
      | some s => exact lt_length_of_getElem?_some hg
    rw [List.length_drop]
    omega

theorem C6_witness :
    g2.orderedB = true ∧ g2.is_valid_idx 0 = some true ∧
    (2 ∈ g2.descendants_of 0 ↔ (g2.validB 2 = true ∧ Heap.IsDesc g2 0 2)) :=
  ⟨by decide, by decide,
   C6_descendants_of_single_scan g2 (ordered_of_orderedB (by decide)) 0
     (by decide) 2⟩

/-! ## Counting valid slots (C4, with the `validCount ≤ len` invariant) -/

theorem inner_mk {α : Type} (L : List (α × Option Nat)) (fr : Finset Nat)
    (n : Nat) : (Heap.mk L fr n).inner = L := rfl

theorem len_mk {α : Type} (L : List (α × Option Nat)) (fr : Finset Nat)
    (n : Nat) : (Heap.mk L fr n).len = n := rfl

theorem free_mk {α : Type} (L : List (α × Option Nat)) (fr : Finset Nat)
    (n : Nat) : (Heap.mk L fr n).free = fr := rfl

theorem mem_validSet_iff {α : Type} (h : Heap α) (j : Nat) :
    j ∈ h.validSet ↔ j < h.inner.length ∧ h.validB j = true := by
  unfold Heap.validSet
  rw [Finset.mem_filter, Finset.mem_range]

theorem mem_descendants_spec {α : Type} {h : Heap α} {i j : Nat}
    (hj : j ∈ h.descendants_of i) :
    i < j ∧ ∃ s, h.inner[j]? = some s ∧ s.2.isSome = true := by
  unfold Heap.descendants_of at hj
  rw [Finset.mem_erase, enum_drop] at hj
  rcases hj with ⟨hne, hmem⟩
  rcases mem_descScan_src _ _ _ hmem with hj0 | ⟨v, q, hvq⟩
  · rw [Finset.mem_singleton] at hj0
    exact absurd hj0 hne
  · rcases mem_enumFrom_spec hvq with ⟨hge, hget⟩
    rw [List.getElem?_drop] at hget
    have hj2 : h.inner[j]? = some (v, some q) := by
      rw [show i + 1 + (j - (i + 1)) = j from by omega] at hget
      exact hget
    exact ⟨by omega, (v, some q), hj2, rfl⟩

theorem remove_set_spec {α : Type} {h : Heap α} {i : Nat} (hz : i ≠ 0)
    (hval : h.is_valid_idx i = some true) :
    Insert.insert i (h.descendants_of i) ⊆ h.validSet ∧
    (0 : Nat) ∉ Insert.insert i (h.descendants_of i) ∧
    (Insert.insert i (h.descendants_of i)).card =
      1 + (h.descendants_of i).card := by
  have hiv : ∃ s, h.inner[i]? = some s ∧ s.2.isSome = true := by
    rcases is_valid_idx_true_elim hval with h0 | hs
    · exact absurd h0 hz
    · exact hs
  refine ⟨?_, ?_, ?_⟩
  · intro j hj
    rw [Finset.mem_insert] at hj
    rw [mem_validSet_iff]
    rcases hj with rfl | hj
    · rcases hiv with ⟨s, hs, hsv⟩
      refine ⟨lt_length_of_getElem?_some hs, ?_⟩
      unfold Heap.validB
      rw [hs]
      simp [hsv]
    · rcases mem_descendants_spec hj with ⟨hij, s, hs, hsv⟩
      refine ⟨lt_length_of_getElem?_some hs, ?_⟩
      unfold Heap.validB
      rw [hs]
      simp [hsv]
  · intro h0
    rw [Finset.mem_insert] at h0
    rcases h0 with h0 | h0
    · exact hz h0.symm
    · rcases mem_descendants_spec h0 with ⟨hij, -⟩
      omega
  · have hni : i ∉ h.descendants_of i := by
      intro hc
      rcases mem_descendants_spec hc with ⟨hij, -⟩
      omega
    rw [Finset.card_insert_of_not_mem hni]
    omega

theorem validB_mk_map {α : Type} (h : Heap α) (S : Finset Nat) (fr : Finset Nat)
    (n : Nat) (j : Nat) :
    Heap.validB ⟨h.inner.enum.map
        (fun x => if x.1 ∈ S then (x.2.1, none) else x.2), fr, n⟩ j =
      if j ∈ S then ((j == 0) : Bool) else h.validB j := by
  unfold Heap.validB
  rw [inner_mk, getElem?_enumMap]
  cases hg : h.inner[j]? with
  | none =>
    by_cases hjS : j ∈ S
    · rw [if_pos hjS]
      simp
    · rw [if_neg hjS]
      simp
  | some s =>
    by_cases hjS : j ∈ S
    · rw [if_pos hjS]
      simp [hjS]
    · rw [if_neg hjS]
      simp [hjS]

theorem remove_len {α : Type} {h h' : Heap α} {i : Nat}
    (hrm : h.remove i = some h') :
    h'.len = h.len - (Insert.insert i (h.descendants_of i)).card := by
  rcases remove_inv hrm with ⟨-, -, h'eq⟩
  rw [h'eq]

theorem remove_free {α : Type} {h h' : Heap α} {i : Nat}
    (hrm : h.remove i = some h') :
    h'.free = h.free ∪ Insert.insert i (h.descendants_of i) := by
  rcases remove_inv hrm with ⟨-, -, h'eq⟩
  rw [h'eq]

theorem remove_validSet {α : Type} {h h' : Heap α} {i : Nat}
    (hrm : h.remove i = some h') :
    h'.validSet = h.validSet \ Insert.insert i (h.descendants_of i) := by
  rcases remove_inv hrm with ⟨hz, hval, h'eq⟩
  rcases remove_set_spec hz hval with ⟨-, h0S, -⟩
  have hlen := remove_inner_length hrm
  ext j
  rw [mem_validSet_iff, Finset.mem_sdiff, mem_validSet_iff, hlen]
  rw [show h'.validB j =
      if j ∈ Insert.insert i (h.descendants_of i) then ((j == 0) : Bool)
      else h.validB j from by rw [h'eq]; exact validB_mk_map h _ _ _ j]
  by_cases hjS : j ∈ Insert.insert i (h.descendants_of i)
  · rw [if_pos hjS]
    have hj0 : j ≠ 0 := fun hc => h0S (hc ▸ hjS)
    have hb : (j == 0) = false := by simpa using hj0
    rw [hb]
    constructor
    · rintro ⟨-, hc⟩
      exact absurd hc (by simp)
    · rintro ⟨-, hc⟩
      exact absurd hjS hc
  · rw [if_neg hjS]
    constructor
    · rintro ⟨h1, h2⟩
      exact ⟨⟨h1, h2⟩, hjS⟩
    · rintro ⟨⟨h1, h2⟩, -⟩
      exact ⟨h1, h2⟩

theorem validSet_append_subset {α : Type} (h : Heap α) (v : α) (p : Nat)
    (fr : Finset Nat) (n : Nat) :
    Heap.validSet ⟨h.inner ++ [(v, some p)], fr, n⟩ ⊆
      Insert.insert h.inner.length h.validSet := by
  intro j hj
  rw [mem_validSet_iff, inner_mk] at hj
  rcases hj with ⟨hjl, hjv⟩
  rw [Finset.mem_insert]
  by_cases hje : j = h.inner.length
  · exact Or.inl hje
  · right
    have hjl' : j < h.inner.length := by
      rw [List.length_append, List.length_cons, List.length_nil] at hjl
      omega
    rw [mem_validSet_iff]
    refine ⟨hjl', ?_⟩
    unfold Heap.validB at hjv ⊢
    rw [inner_mk, List.getElem?_append_left hjl'] at hjv
    exact hjv

theorem validSet_set_subset {α : Type} (h : Heap α) (v : α) (p i : Nat)
    (fr : Finset Nat) (n : Nat) :
    Heap.validSet ⟨h.inner.set i (v, some p), fr, n⟩ ⊆
      Insert.insert i h.validSet := by
  intro j hj
  rw [mem_validSet_iff, inner_mk] at hj
  rcases hj with ⟨hjl, hjv⟩
  rw [Finset.mem_insert]
  by_cases hje : j = i
  · exact Or.inl hje
  · right
    rw [mem_validSet_iff]
    rw [List.length_set] at hjl
    refine ⟨hjl, ?_⟩
    unfold Heap.validB at hjv ⊢
    rw [inner_mk, List.getElem?_set_ne (fun hc => hje hc.symm)] at hjv
    exact hjv

theorem insert_validCount_le {α : Type} {h h' : Heap α} {v : α} {p i : Nat}
    {order : List Nat} (hins : h.insert v p order = some (h', i)) :
    h'.validCount ≤ h.validCount + 1 ∧ h'.len = h.len + 1 := by
  rcases insert_inv hins with ⟨-, -, hbr⟩
  rcases hbr with ⟨-, h'eq⟩ | ⟨-, -, h'eq⟩
  · constructor
    · calc h'.validCount ≤ (Insert.insert h.inner.length h.validSet).card :=
            Finset.card_le_card (by rw [h'eq]; exact validSet_append_subset h v p _ _)
        _ ≤ h.validSet.card + 1 := Finset.card_insert_le _ _
    · rw [h'eq]
  · constructor
    · calc h'.validCount ≤ (Insert.insert i h.validSet).card :=
            Finset.card_le_card (by rw [h'eq]; exact validSet_set_subset h v p i _ _)
        _ ≤ h.validSet.card + 1 := Finset.card_insert_le _ _
    · rw [h'eq]

theorem validCount_new {α : Type} (root : α) : (Heap.new root).validCount = 1 := by
  unfold Heap.validCount Heap.validSet Heap.new
  rw [inner_mk]
  rw [show ([(root, none)] : List (α × Option Nat)).length = 1 from rfl]
  rw [Finset.range_one, Finset.filter_singleton,
    if_pos (show (Heap.mk [(root, none)] ({1} : Finset Nat) 1).validB 0 = true
      from rfl)]
  exact Finset.card_singleton 0

theorem reachable_validCount_le_len {α : Type} {h : Heap α}
    (hr : Heap.Reachable h) : h.validCount ≤ h.len := by
  induction hr with
  | base root =>
    rw [validCount_new]
    exact Nat.le_refl 1
  | baseC c root =>
    show (Heap.new root).validCount ≤ (Heap.new root).len
    rw [validCount_new]
    exact Nat.le_refl 1
  | @ins g g' v p i order hr0 hnd hen hins ih =>
    rcases insert_validCount_le hins with ⟨hc, hl⟩
    omega
  | @rem g g' i hr0 hrm ih =>
    rcases remove_inv hrm with ⟨hz, hval, -⟩
    rcases remove_set_spec hz hval with ⟨hsub, -, -⟩
    have hc : g'.validCount =
        g.validCount - (Insert.insert i (g.descendants_of i)).card := by
      unfold Heap.validCount
      rw [remove_validSet hrm, Finset.card_sdiff hsub]
    rw [hc, remove_len hrm]
    exact Nat.sub_le_sub_right ih _

/-- C4: for every reachable tree state and every removable index `i`, after
`remove(i)` the index `i` and every pre-removal descendant are invalid, every
removed index is in the free set with its parent link cleared and its value
left in place, and `len` has decreased by exactly
`1 + |descendants_of(i)|`. -/
theorem C4_remove_postconditions {α : Type} (h h' : Heap α) (i : Nat)
    (hr : Heap.Reachable h) (hrm : h.remove i = some h') :
    h'.is_valid_idx i = some false ∧
    (∀ j ∈ h.descendants_of i, h'.is_valid_idx j = some false) ∧
    (∀ j ∈ Insert.insert i (h.descendants_of i),
        j ∈ h'.free ∧ h'.parentOf j = none ∧
        (h'.inner[j]?).map Prod.fst = (h.inner[j]?).map Prod.fst) ∧
    h'.len + (1 + (h.descendants_of i).card) = h.len := by
  rcases remove_inv hrm with ⟨hz, hval, h'eq⟩
  rcases remove_set_spec hz hval with ⟨hsub, h0S, hcard⟩
  have hInner : h'.inner = h.inner.enum.map
      (fun x => if x.1 ∈ Insert.insert i (h.descendants_of i)
        then (x.2.1, none) else x.2) := by
    rw [h'eq]
  have hFree : h'.free = h.free ∪ Insert.insert i (h.descendants_of i) := by
    rw [h'eq]
  have hLen : h'.len = h.len - (Insert.insert i (h.descendants_of i)).card := by
    rw [h'eq]
  have hinval : ∀ j s, j ∈ Insert.insert i (h.descendants_of i) → j ≠ 0 →
      h.inner[j]? = some s → h'.is_valid_idx j = some false := by
    intro j s hjS hj0 hs
    unfold Heap.is_valid_idx
    rw [if_neg hj0, hInner, getElem?_enumMap, hs]
    simp [hjS]
  refine ⟨?_, ?_, ?_, ?_⟩
  · rcases is_valid_idx_true_elim hval with h0 | ⟨s, hs, -⟩
    · exact absurd h0 hz
    · exact hinval i s (Finset.mem_insert_self i _) hz hs
  · intro j hj
    rcases mem_descendants_spec hj with ⟨hij, s, hs, -⟩
    exact hinval j s (Finset.mem_insert_of_mem hj) (by omega) hs
  · intro j hjS
    refine ⟨?_, ?_, ?_⟩
    · rw [hFree]
      exact Finset.mem_union_right _ hjS
    · rw [remove_parentOf hrm j, if_pos hjS]
    · rw [hInner, getElem?_enumMap]
      cases hg : h.inner[j]? with
      | none => rfl
      | some s => simp [hjS]
  · have hSle : (Insert.insert i (h.descendants_of i)).card ≤ h.len :=
      calc (Insert.insert i (h.descendants_of i)).card
          ≤ h.validSet.card := Finset.card_le_card hsub
        _ ≤ h.len := reachable_validCount_le_len hr
    rw [hLen, hcard]
    rw [hcard] at hSle
    omega

theorem C4_witness :
    g3.remove 1 = some g4 ∧
    g4.is_valid_idx 1 = some false ∧
    (∀ j ∈ g3.descendants_of 1, g4.is_valid_idx j = some false) ∧
    g4.len + (1 + (g3.descendants_of 1).card) = g3.len :=
  ⟨by decide,
   (C4_remove_postconditions g3 g4 1 reach_g3 (by decide)).1,
   (C4_remove_postconditions g3 g4 1 reach_g3 (by decide)).2.1,
   (C4_remove_postconditions g3 g4 1 reach_g3 (by decide)).2.2.2⟩
